import Mathlib

set_option maxHeartbeats 2000000
set_option maxRecDepth 4000

namespace Lotsawa

/-!
Shallow embedding of the lotsawa Earley/Leo recognizer (the later Parser
variant of the source, which the design document designates as canonical):
the grammar precomputation pipeline (symbol census, prediction matrices,
right-recursion matrix over Warshall transitive closure) and the per-token
chart engine (advance, predict-from-candidate, complete with the Leo branch).

The bit-matrix kernel is an external library dependency; its contract
(transitive closure: reachability in one or more steps, never shrinking)
is modelled by a Warshall iteration on boolean matrices represented as
functions with an explicit dimension.
-/

/-- One Warshall elimination step: allow vertex `k` as an intermediate. -/
def wstep (M : Nat → Nat → Bool) (k : Nat) (i j : Nat) : Bool :=
  M i j || (M i k && M k j)

/-- Warshall iteration: after `k` steps, intermediates `0..k-1` are allowed. -/
def warshallAux (M : Nat → Nat → Bool) : Nat → Nat → Nat → Bool
  | 0 => M
  | k + 1 => wstep (warshallAux M k) k

/-- Transitive closure of an `n × n` boolean matrix
(reachability in one or more steps), modelling the bit-matrix library's
`transitiveClosure`. -/
def warshall (M : Nat → Nat → Bool) (n : Nat) : Nat → Nat → Bool :=
  warshallAux M n

/-- A chain of `M`-edges from `i` to `j` passing through the listed
intermediate vertices in order. -/
def isChain (M : Nat → Nat → Bool) : Nat → List Nat → Nat → Prop
  | i, [], j => M i j = true
  | i, x :: l, j => M i x = true ∧ isChain M x l j

/-- A raw input rule: a name and the names of the right-hand-side symbols.
`Ref` and `Terminal` are both represented by the symbol name, which is the
only field the grammar processing reads. -/
structure RawRule where
  name : String
  symbols : List String
deriving DecidableEq

/-- A processed rule: interned lhs symbol id (`sym`) and rhs symbol ids
(`symbols`), as produced in place by the census. -/
structure ERule where
  name : String
  sym : Nat
  symbols : List Nat
deriving DecidableEq

instance : Inhabited ERule := ⟨⟨"", 0, []⟩⟩

/-- The processed grammar: rule vector, symbol table, accept-rule id, the
per-symbol prediction lists, and the right-recursion matrix. -/
structure Gram where
  rules : List ERule
  symbols : List String
  acceptRule : Nat
  predictions_for_symbols : List (List Nat)
  right_recursion : Nat → Nat → Bool

/-- Census helper: append a name to the table if it is not yet present. -/
def addName (out : List String) (nm : String) : List String :=
  if nm ∈ out then out else out ++ [nm]

/-- Walk every rule once (name first, then rhs symbols), assigning each newly
seen name the next id, exactly as `censusSymbols` does. -/
def censusSymbols (rules : List RawRule) : List String :=
  rules.foldl (fun out r => r.symbols.foldl addName (addName out r.name)) []

/-- Rewrite a raw rule's names into symbol ids against the census table. -/
def processRule (table : List String) (r : RawRule) : ERule :=
  ⟨r.name, table.indexOf r.name, r.symbols.map (fun s => table.indexOf s)⟩

/-- Rule ids whose lhs is `sym`, in rule order (`by_symbol`). -/
def bySymbol (rules : List ERule) (sym : Nat) : List Nat :=
  (List.range rules.length).filter (fun i => (rules.getD i default).sym == sym)

/-- Seed of the rule-predicts-rule matrix: rule `j` predicts rule `k` when
`j`'s first rhs symbol is `k`'s lhs; the diagonal is set for every rule. -/
def pfrSeed (rules : List ERule) (j k : Nat) : Bool :=
  if j < rules.length && k < rules.length then
    j == k ||
      (match (rules.getD j default).symbols.head? with
       | some s0 => s0 == (rules.getD k default).sym
       | none => false)
  else false

/-- The closed rule-predicts-rule matrix (`predictions_for_rules`). -/
def pfr (rules : List ERule) : Nat → Nat → Bool :=
  warshall (pfrSeed rules) rules.length

/-- `predictions_for_symbols[sym]`: for each rule with lhs `sym`, scan its
prediction row in ascending rule order, collecting unseen rule ids. -/
def pfsFor (rules : List ERule) (sym : Nat) : List Nat :=
  (bySymbol rules sym).foldl (fun out rule =>
    (List.range rules.length).foldl (fun out2 rn =>
      if pfr rules rule rn && !(out2.contains rn) then out2 ++ [rn] else out2) out) []

/-- Seed of the right-recursion matrix as the source builds it: for each
symbol row `x` (ranging over the table) and each rule `r` whose last rhs
symbol is `x`, set column `r.sym`. Rules with empty rhs have no last symbol
and contribute nothing. -/
def seedRR (rules : List ERule) (nsyms : Nat) (x y : Nat) : Bool :=
  decide (x < nsyms) && rules.any (fun r => r.symbols.getLast? == some x && r.sym == y)

/-- The right-recursion matrix: transitive closure of `seedRR`
(`identifyRightRecursion`). -/
def rightRecursionOf (rules : List ERule) (nsyms : Nat) : Nat → Nat → Bool :=
  warshall (seedRR rules nsyms) nsyms

/-- The grammar builder: append the accept rule `_accept → start`, census the
symbols, process the rules, and precompute the prediction and
right-recursion tables. -/
def Grammar (input : List RawRule) : Gram :=
  let rawRules := input ++ [⟨"_accept", ["start"]⟩]
  let table := censusSymbols rawRules
  let rules := rawRules.map (processRule table)
  { rules := rules
    symbols := table
    acceptRule := rawRules.length - 1
    predictions_for_symbols := (List.range table.length).map (pfsFor rules)
    right_recursion := rightRecursionOf rules table.length }

/-- A dotted-rule chart item. `leo` is the origin of a Leo-collapsed prefix
(`none` models both JS `null` and an absent field, which the source treats
identically via loose equality with `null`). `kind` is the diagnostic tag. -/
structure Item where
  ruleNo : Nat
  pos : Nat
  origin : Nat
  leo : Option Nat
  kind : Char
deriving DecidableEq

/-- An Earley set: the ordered list of its items. -/
structure ESet where
  items : List Item
deriving DecidableEq

/-- Errors the recognizer can raise: `leoRef` models the ReferenceError
thrown by the undeclared identifier read in the Leo completion branch,
`typeError` a property access on `undefined`, and `fuel` exhaustion of the
explicit iteration budget supplied to the model. -/
inductive PErr where
  | leoRef
  | typeError
  | fuel
deriving DecidableEq

/-- Parser state: the chart and the index of the next set to build. -/
structure PState where
  sets : List ESet
  currentSet : Nat
deriving DecidableEq

/-- Read a set from the chart; out-of-range reads give an empty set. -/
def getSet : List ESet → Nat → ESet
  | [], _ => ⟨[]⟩
  | s :: _, 0 => s
  | _ :: t, k + 1 => getSet t k

/-- Replace a set at an existing chart index (no-op out of range). -/
def putSet : List ESet → Nat → ESet → List ESet
  | [], _, _ => []
  | _ :: t, 0, s => s :: t
  | h :: t, k + 1, s => h :: putSet t k s

/-- Deduplicating insertion: the item is dropped when an item with the same
`(ruleNo, pos, origin)` triple is already present (`add`/`ruleEqual`). -/
def addItem (s : ESet) (it : Item) : ESet :=
  if s.items.any (fun x =>
      x.ruleNo == it.ruleNo && x.pos == it.pos && x.origin == it.origin)
  then s else ⟨s.items ++ [it]⟩

/-- Look up a rule by id (`grammar[ruleNo]`). -/
def ruleOf (g : Gram) (n : Nat) : ERule :=
  g.rules.getD n default

/-- The symbol an item expects next, if any (`nextSymbol`). -/
def nextSymbol (g : Gram) (prior : Item) : Option Nat :=
  (ruleOf g prior.ruleNo).symbols.get? prior.pos

/-- Resolve a token against the whole symbol table (`symbolOf`);
`none` models the JS `-1`. -/
def symbolOf (g : Gram) (tok : String) : Option Nat :=
  g.symbols.findIdx? (fun s => s == tok)

/-- Leo eligibility (`leo(rule, which)`): the rule's last rhs symbol equals
its lhs, or the right-recursion bit `(lhs, lastSym)` is set; note no dot
position is consulted. The `none` branch for an empty rhs is unreachable
from the call sites, which always pass a rule with a symbol at the dot. -/
def leoFn (g : Gram) (rule : ERule) (which : Nat) : Option Nat :=
  match rule.symbols.getLast? with
  | none => none
  | some lastSym =>
      if lastSym == rule.sym || g.right_recursion rule.sym lastSym
      then some which else none

/-- The item built by `advance` for a matching candidate: dot moved right,
`leo` carried forward when non-null, else freshly computed from the rule at
the candidate's origin. -/
def advItem (g : Gram) (cand : Item) : Item :=
  { ruleNo := cand.ruleNo, pos := cand.pos + 1, origin := cand.origin,
    leo := match cand.leo with
           | some l => some l
           | none => leoFn g (ruleOf g cand.ruleNo) cand.origin,
    kind := 'A' }

/-- The item built by `predictCandidate`'s `expandRule`: a fresh prediction
whose `leo` is computed from the *predicting* candidate's rule, seeded with
the candidate's `leo` when present, else its origin. -/
def predItem (g : Gram) (cand : Item) (rn which : Nat) : Item :=
  { ruleNo := rn, pos := 0, origin := which,
    leo := leoFn g (ruleOf g cand.ruleNo) (cand.leo.getD cand.origin),
    kind := 'P' }

/-- `predictCandidate`: when the candidate still expects a symbol, add a
prediction for every rule in that symbol's prediction list. -/
def predictCandidate (g : Gram) (cur : ESet) (cand : Item) (which : Nat) : ESet :=
  if cand.pos == 0 then cur
  else if (ruleOf g cand.ruleNo).symbols.length > cand.pos then
    (g.predictions_for_symbols.getD ((ruleOf g cand.ruleNo).symbols.getD cand.pos 0) []).foldl
      (fun s rn => addItem s (predItem g cand rn which)) cur
  else cur

/-- One candidate of the `advance` loop: when the candidate's next expected
symbol matches the token, insert the advanced item and predict from it. -/
def advStepF (g : Gram) (sym which : Nat) (cur : ESet) (cand : Item) : ESet :=
  if (ruleOf g cand.ruleNo).symbols.get? cand.pos == some sym then
    predictCandidate g (addItem cur (advItem g cand)) (advItem g cand) which
  else cur

/-- The body of `advance`: step every item of the previous set whose next
expected symbol matches the token, then predict from the advanced item. -/
def advanceStep (g : Gram) (prev cur : ESet) (sym which : Nat) : ESet :=
  prev.items.foldl (advStepF g sym which) cur

/-- `advance(which, tok)`: resolve the token; bail out on an unknown token
or a missing previous set, else run `advanceStep` into set `which`. -/
def advanceSets (g : Gram) (sets : List ESet) (which : Nat) (tok : String) :
    List ESet :=
  match symbolOf g tok with
  | none => sets
  | some sym =>
    if which == 0 then sets
    else if which - 1 < sets.length then
      putSet sets which (advanceStep g (getSet sets (which - 1)) (getSet sets which) sym which)
    else sets

/-- The item built by the non-Leo completion branch for an advanced
candidate: dot moved right, no `leo` field (the JS literal omits it). -/
def compItem (cand : Item) : Item :=
  ⟨cand.ruleNo, cand.pos + 1, cand.origin, none, 'C'⟩

/-- One candidate of the non-Leo completion loop: when the candidate's next
symbol is the completed lhs, insert the advanced item and predict from it. -/
def compStepF (g : Gram) (sym which : Nat) (cur : ESet) (cand : Item) : ESet :=
  if nextSymbol g cand == some sym then
    predictCandidate g (addItem cur (compItem cand)) (compItem cand) which
  else cur

/-- The non-Leo completion body: advance, over a snapshot of the origin set
(the JS `forEach` caches the length on entry), every candidate whose next
symbol is the completed lhs, then predict from each advanced item. -/
def completeElse (g : Gram) (snapshot : List Item) (sym which : Nat)
    (cur : ESet) : ESet :=
  snapshot.foldl (compStepF g sym which) cur

/-- Process one item of the current set during completion. A completed item
carrying a non-null `leo` enters the Leo branch, whose item literal reads an
undeclared identifier: the first matching target raises a ReferenceError. -/
def processItem (g : Gram) (sets : List ESet) (which : Nat) (drule : Item) :
    Except PErr (List ESet) :=
  if drule.pos < (ruleOf g drule.ruleNo).symbols.length then .ok sets
  else
    match drule.leo with
    | some leoIdx =>
      if (getSet sets leoIdx).items.any
          (fun item => nextSymbol g item == some (ruleOf g drule.ruleNo).sym)
      then .error .leoRef
      else .ok sets
    | none =>
      .ok (putSet sets which
        (completeElse g (getSet sets drule.origin).items
          (ruleOf g drule.ruleNo).sym which (getSet sets which)))

/-- `forEachCanExpand`: iterate the current set by index, re-reading the
length each step so items appended during the pass are processed too. -/
def completeLoop (g : Gram) (which : Nat) :
    Nat → Nat → List ESet → Except PErr (List ESet)
  | i, 0, sets =>
    if i < (getSet sets which).items.length then .error .fuel else .ok sets
  | i, fuel + 1, sets =>
    if h : i < (getSet sets which).items.length then
      match processItem g sets which ((getSet sets which).items.get ⟨i, h⟩) with
      | .error e => .error e
      | .ok sets' => completeLoop g which (i + 1) fuel sets'
    else .ok sets

/-- `sets[currentSet] = sets[currentSet] || {items: []}`: extend the chart
with empty sets up to index `k` when needed. -/
def ensureSets (sets : List ESet) (k : Nat) : List ESet :=
  if k < sets.length then sets
  else sets ++ List.replicate (k + 1 - sets.length) ⟨[]⟩

/-- `push(tok)`: allocate the current set, advance, complete, and step the
set counter. -/
def handleToken (g : Gram) (fuel : Nat) (st : PState) (tok : String) :
    Except PErr PState :=
  match completeLoop g st.currentSet 0 fuel
      (advanceSets g (ensureSets st.sets st.currentSet) st.currentSet tok) with
  | .error e => .error e
  | .ok sets2 => .ok ⟨sets2, st.currentSet + 1⟩

/-- Push a list of tokens in order. -/
def pushTokens (g : Gram) (fuel : Nat) (st : PState) :
    List String → Except PErr PState
  | [] => .ok st
  | t :: ts =>
    match handleToken g fuel st t with
    | .error e => .error e
    | .ok st' => pushTokens g fuel st' ts

/-- The chart seed built by `initialize`: one initial item per predicted
rule of the last table symbol (`_accept`). -/
def initSet (g : Gram) : ESet :=
  (g.predictions_for_symbols.getD (g.symbols.length - 1) []).foldl
    (fun s rn => addItem s ⟨rn, 0, 0, none, 'I'⟩) ⟨[]⟩

/-- Parser construction: seed set 0 from the predictions of the last table
symbol (`_accept`), run `complete(0)`, and start with `currentSet = 1`. -/
def initState (g : Gram) (fuel : Nat) : Except PErr PState :=
  match completeLoop g 0 0 fuel [initSet g] with
  | .error e => .error e
  | .ok sets => .ok ⟨sets, 1⟩

/-- Construct a parser and push every token of the input. -/
def runParser (g : Gram) (toks : List String) (fuel : Nat) :
    Except PErr PState :=
  match initState g fuel with
  | .error e => .error e
  | .ok st => pushTokens g fuel st toks

/-- The accept test of `success`: origin 0, the accept rule, dot at the end
of its rhs. -/
def isAcceptItem (g : Gram) (dr : Item) : Bool :=
  dr.origin == 0 && dr.ruleNo == g.acceptRule &&
    dr.pos == (ruleOf g g.acceptRule).symbols.length

/-- `success()`: examine the last set; exactly one accept item means
success. With no last set, `currentSet == 0` returns true and any other
value dereferences `undefined` (a TypeError, modelled as `none`). -/
def successFn (g : Gram) (st : PState) : Option Bool :=
  match st.sets.getLast? with
  | none => if st.currentSet == 0 then some true else none
  | some tab => some ((tab.items.countP (isAcceptItem g)) == 1)

/-- The value `parse` returns: JS `p.success() && p` is either the boolean
`false` or the parser object itself. -/
inductive ParseResult where
  | bool (b : Bool)
  | parser (st : PState)
deriving DecidableEq

/-- JS truthiness of a `parse` result. -/
def truthy : ParseResult → Bool
  | .bool b => b
  | .parser _ => true

/-- `parse(grammar, toParse)`: drive a fresh parser over the input and
return `success() && p`. -/
def parseFn (g : Gram) (toParse : List String) (fuel : Nat) :
    Except PErr ParseResult :=
  match runParser g toParse fuel with
  | .error e => .error e
  | .ok st =>
    match successFn g st with
    | some true => .ok (.parser st)
    | some false => .ok (.bool false)
    | none => .error .typeError

/-- The identity of an item for deduplication purposes. -/
def itemTriple (i : Item) : Nat × Nat × Nat := (i.ruleNo, i.pos, i.origin)

/-- Some item with the given `(ruleNo, pos, origin)` identity is in the set. -/
def memTriple (s : ESet) (rn p o : Nat) : Prop :=
  ∃ x ∈ s.items, x.ruleNo = rn ∧ x.pos = p ∧ x.origin = o

/-- Every item of the set has origin at most `k`. -/
def OriginLe (s : ESet) (k : Nat) : Prop := ∀ it ∈ s.items, it.origin ≤ k

/-- Origin bound invariant over a whole chart. -/
def OriginOK (sets : List ESet) : Prop := ∀ k, OriginLe (getSet sets k) k

/-- No two items of the set share an identity triple. -/
def nodupTriples (s : ESet) : Prop := (s.items.map itemTriple).Nodup

/-- Identity uniqueness invariant over a whole chart. -/
def UniqOK (sets : List ESet) : Prop := ∀ k, nodupTriples (getSet sets k)

/-- One step of the spec's rightmost-symbol relation: some rule with lhs `u`
whose last rhs symbol is `v`. -/
def RightmostStep (rules : List ERule) (u v : Nat) : Prop :=
  ∃ r ∈ rules, r.sym = u ∧ r.symbols.getLast? = some v

/-- Wellformedness of processed rules against a symbol table size: every lhs
and rhs symbol id is in range. -/
def GramRulesWF (rules : List ERule) (nsyms : Nat) : Prop :=
  ∀ r ∈ rules, r.sym < nsyms ∧ ∀ s ∈ r.symbols, s < nsyms

/-- A symbol can derive the empty string: some rule with that lhs has an
all-nullable (possibly empty) rhs. -/
inductive NullableSym (g : Gram) : Nat → Prop where
  | intro (r : ERule) (hr : r ∈ g.rules)
      (h : ∀ x ∈ r.symbols, NullableSym g x) : NullableSym g r.sym

/-- Claim C3 as stated (its necessary half): a stored item carries a
non-empty `leo` only when at most the final rhs symbol remains after the
dot at the position where it was assigned, hence `pos + 1 ≥ |rhs|`. -/
def claimC3 : Prop :=
  ∀ (g : Gram) (toks : List String) (fuel : Nat) (st : PState),
    runParser g toks fuel = .ok st →
    ∀ (k : Nat), ∀ item ∈ (getSet st.sets k).items,
      item.leo ≠ none → (ruleOf g item.ruleNo).symbols.length ≤ item.pos + 1

/-- Claim C4 as stated: after grammar construction,
`right_recursion[lhs][sym]` holds iff a rule with lhs `lhs` reaches, through
a chain of rules each followed via its rightmost symbol, a rule ending in
`sym`. -/
def claimC4 : Prop :=
  ∀ (rs : List RawRule) (a b : Nat),
    a < (Grammar rs).symbols.length → b < (Grammar rs).symbols.length →
    ((Grammar rs).right_recursion a b = true ↔
      Relation.TransGen (RightmostStep (Grammar rs).rules) a b)

/-- Claim C9 as stated: `parse` returns exactly the boolean value of the
driven parser's `success()`. -/
def claimC9 : Prop :=
  ∀ (g : Gram) (toks : List String) (fuel : Nat) (st : PState),
    runParser g toks fuel = .ok st →
    parseFn g toks fuel = .ok (.bool (successFn g st == some true))

/-- Test grammar `start → a`. -/
def gA : Gram := Grammar [⟨"start", ["a"]⟩]

/-- Right-recursive test grammar `start → A; A → a A; A → a` (the grammar of
the repository's own right-recursion test). -/
def gRR : Gram := Grammar [⟨"start", ["A"]⟩, ⟨"A", ["a", "A"]⟩, ⟨"A", ["a"]⟩]

/-- Nullable test grammar `start → A A; A → ε`. -/
def gNull : Gram := Grammar [⟨"start", ["A", "A"]⟩, ⟨"A", []⟩]

/-- Grammar with a right-recursive rule of length three,
`start → A; A → a a A; A → a`. -/
def gC3 : Gram := Grammar [⟨"start", ["A"]⟩, ⟨"A", ["a", "a", "A"]⟩, ⟨"A", ["a"]⟩]

/-- Extract the state of a successful run (dummy state on error). -/
def okState (e : Except PErr PState) : PState :=
  match e with
  | .ok st => st
  | .error _ => ⟨[], 0⟩

/-- The parser state after pushing `a` on `gA`. -/
def stA : PState := okState (runParser gA ["a"] 50)

/-- The freshly constructed parser state for `gA` (no tokens pushed). -/
def stA0 : PState := okState (initState gA 50)

/-- The parser state after one push of the token `start` on a fresh `gA`
parser. -/
def stStart1 : PState := okState (handleToken gA 50 stA0 "start")

/-- The parser state after pushing `a` on `gC3`. -/
def stC3 : PState := okState (runParser gC3 ["a"] 50)

/-- The parser state of `gNull` with no tokens pushed. -/
def stNull : PState := okState (runParser gNull [] 50)

/-- The parser state after pushing the single token `start` on `gA`. -/
def stStart : PState := okState (runParser gA ["start"] 50)

/-! ## Correctness of the Warshall transitive closure -/

theorem isChain_append (M : Nat → Nat → Bool) :
    ∀ (l1 : List Nat) (i x : Nat) (l2 : List Nat) (j : Nat),
      isChain M i l1 x → isChain M x l2 j → isChain M i (l1 ++ x :: l2) j := by
  intro l1
  induction l1 with
  | nil => intro i x l2 j h1 h2; exact ⟨h1, h2⟩
  | cons y t ih =>
    intro i x l2 j h1 h2
    exact ⟨h1.1, ih y x l2 j h1.2 h2⟩

theorem isChain_split (M : Nat → Nat → Bool) :
    ∀ (l1 : List Nat) (i x : Nat) (l2 : List Nat) (j : Nat),
      isChain M i (l1 ++ x :: l2) j → isChain M i l1 x ∧ isChain M x l2 j := by
  intro l1
  induction l1 with
  | nil => intro i x l2 j h; exact ⟨h.1, h.2⟩
  | cons y t ih =>
    intro i x l2 j h
    have := ih y x l2 j h.2
    exact ⟨⟨h.1, this.1⟩, this.2⟩

theorem chain_to_wstep (M : Nat → Nat → Bool) (k : Nat)
    (hk : ∀ (l : List Nat) (i j : Nat), (∀ x ∈ l, x < k) → isChain M i l j →
      warshallAux M k i j = true) :
    ∀ (n : Nat) (l : List Nat), l.length ≤ n → ∀ (i j : Nat),
      (∀ x ∈ l, x < k + 1) → isChain M i l j →
      wstep (warshallAux M k) k i j = true := by
  intro n
  induction n with
  | zero =>
    intro l hl i j _ hc
    have hnil : l = [] := List.eq_nil_of_length_eq_zero (Nat.le_zero.mp hl)
    subst hnil
    have := hk [] i j (by intro x hx; cases hx) hc
    simp [wstep, this]
  | succ n ih =>
    intro l hl i j hb hc
    by_cases hkl : k ∈ l
    · obtain ⟨s, t, rfl⟩ := List.append_of_mem hkl
      obtain ⟨hc1, hc2⟩ := isChain_split M s i k t j hc
      have hlen : (s ++ k :: t).length = s.length + t.length + 1 := by
        simp [List.length_append]
        omega
      have hs : s.length ≤ n := by omega
      have ht : t.length ≤ n := by omega
      have hbs : ∀ x ∈ s, x < k + 1 := fun x hx => hb x (List.mem_append_left _ hx)
      have hbt : ∀ x ∈ t, x < k + 1 := fun x hx =>
        hb x (List.mem_append_right _ (List.mem_cons_of_mem _ hx))
      have h1 := ih s hs i k hbs hc1
      have h2 := ih t ht k j hbt hc2
      have w1 : warshallAux M k i k = true := by
        by_cases hik : warshallAux M k i k = true
        · exact hik
        · simp [wstep, Bool.eq_false_iff.mpr hik] at h1
      have w2 : warshallAux M k k j = true := by
        by_cases hkj : warshallAux M k k j = true
        · exact hkj
        · simp [wstep, Bool.eq_false_iff.mpr hkj] at h2
      simp [wstep, w1, w2]
    · have hb' : ∀ x ∈ l, x < k := by
        intro x hx
        rcases Nat.lt_succ_iff_lt_or_eq.mp (hb x hx) with h | h
        · exact h
        · exact absurd (h ▸ hx) hkl
      have := hk l i j hb' hc
      simp [wstep, this]

theorem warshallAux_iff (M : Nat → Nat → Bool) :
    ∀ (k i j : Nat), warshallAux M k i j = true ↔
      ∃ l : List Nat, (∀ x ∈ l, x < k) ∧ isChain M i l j := by
  intro k
  induction k with
  | zero =>
    intro i j
    constructor
    · intro h; exact ⟨[], fun x hx => absurd hx (List.not_mem_nil x), h⟩
    · rintro ⟨l, hb, hc⟩
      cases l with
      | nil => exact hc
      | cons x t => exact absurd (hb x (List.mem_cons_self x t)) (Nat.not_lt_zero x)
  | succ k ih =>
    intro i j
    constructor
    · intro h
      have hh : (warshallAux M k i j ||
          (warshallAux M k i k && warshallAux M k k j)) = true := h
      rw [Bool.or_eq_true, Bool.and_eq_true] at hh
      rcases hh with h1 | ⟨ha, hb'⟩
      · rcases (ih i j).mp h1 with ⟨l, hb, hc⟩
        exact ⟨l, fun x hx => Nat.lt_succ_of_lt (hb x hx), hc⟩
      · rcases (ih i k).mp ha with ⟨l1, hb1, hc1⟩
        rcases (ih k j).mp hb' with ⟨l2, hb2, hc2⟩
        refine ⟨l1 ++ k :: l2, ?_, isChain_append M l1 i k l2 j hc1 hc2⟩
        intro x hx
        rcases List.mem_append.mp hx with h | h
        · exact Nat.lt_succ_of_lt (hb1 x h)
        · rcases List.mem_cons.mp h with h | h
          · exact h ▸ Nat.lt_succ_self k
          · exact Nat.lt_succ_of_lt (hb2 x h)
    · rintro ⟨l, hb, hc⟩
      have hk : ∀ (l : List Nat) (i j : Nat), (∀ x ∈ l, x < k) → isChain M i l j →
          warshallAux M k i j = true :=
        fun l i j hb hc => (ih i j).mpr ⟨l, hb, hc⟩
      exact chain_to_wstep M k hk l.length l (Nat.le_refl _) i j hb hc

theorem isChain_transGen (M : Nat → Nat → Bool) :
    ∀ (l : List Nat) (i j : Nat), isChain M i l j →
      Relation.TransGen (fun a b => M a b = true) i j := by
  intro l
  induction l with
  | nil => intro i j h; exact Relation.TransGen.single h
  | cons x t ih => intro i j h; exact Relation.TransGen.head h.1 (ih x j h.2)

theorem transGen_isChain (M : Nat → Nat → Bool) {i j : Nat}
    (h : Relation.TransGen (fun a b => M a b = true) i j) :
    ∃ l, isChain M i l j := by
  induction h with
  | single h => exact ⟨[], h⟩
  | @tail b c _ hbc ih =>
    rcases ih with ⟨l, hc⟩
    exact ⟨l ++ [b], isChain_append M l i b [] c hc hbc⟩

theorem chain_elem_lt (M : Nat → Nat → Bool) (n : Nat)
    (hM : ∀ a b, M a b = true → b < n) :
    ∀ (l : List Nat) (i j : Nat), isChain M i l j → ∀ x ∈ l, x < n := by
  intro l
  induction l with
  | nil => intro i j _ x hx; cases hx
  | cons y t ih =>
    intro i j hc x hx
    rcases List.mem_cons.mp hx with h | h
    · exact h ▸ hM i y hc.1
    · exact ih y j hc.2 x h

theorem warshall_correct (M : Nat → Nat → Bool) (n : Nat)
    (hM : ∀ a b, M a b = true → b < n) (i j : Nat) :
    warshall M n i j = true ↔ Relation.TransGen (fun a b => M a b = true) i j := by
  constructor
  · intro h
    rcases (warshallAux_iff M n i j).mp h with ⟨l, _, hc⟩
    exact isChain_transGen M l i j hc
  · intro h
    rcases transGen_isChain M h with ⟨l, hc⟩
    exact (warshallAux_iff M n i j).mpr ⟨l, chain_elem_lt M n hM l i j hc, hc⟩

/-! ## The right-recursion matrix (claim C4) -/

theorem mem_of_getLast?_eq {α : Type} :
    ∀ {l : List α} {a : α}, l.getLast? = some a → a ∈ l := by
  intro l
  induction l with
  | nil => intro a h; cases h
  | cons x t ih =>
    intro a h
    cases t with
    | nil =>
      simp [List.getLast?] at h
      exact h ▸ List.mem_cons_self x []
    | cons y u =>
      rw [List.getLast?_cons_cons] at h
      exact List.mem_cons_of_mem x (ih h)

theorem seedRR_iff (rules : List ERule) (nsyms x y : Nat) :
    seedRR rules nsyms x y = true ↔
      x < nsyms ∧ ∃ r ∈ rules, r.symbols.getLast? = some x ∧ r.sym = y := by
  unfold seedRR
  rw [Bool.and_eq_true, List.any_eq_true]
  simp only [Bool.and_eq_true, beq_iff_eq, decide_eq_true_eq]

theorem seedRR_swap_rightmost (rules : List ERule) (nsyms : Nat)
    (hwf : GramRulesWF rules nsyms) (x y : Nat) :
    seedRR rules nsyms x y = true ↔ RightmostStep rules y x := by
  rw [seedRR_iff]
  constructor
  · rintro ⟨-, r, hr, hlast, hsym⟩
    exact ⟨r, hr, hsym, hlast⟩
  · rintro ⟨r, hr, hsym, hlast⟩
    exact ⟨(hwf r hr).2 x (mem_of_getLast?_eq hlast), r, hr, hlast, hsym⟩

/-- Claim C4, amended: the computed `right_recursion` matrix holds at
`(a, b)` iff a rule with lhs `b` can, through a chain of rules each followed
via its rightmost symbol, reach a rule ending in `a` — i.e. the matrix is
indexed `(last symbol, lhs)`, the transpose of the claimed orientation. -/
theorem c4_rr_amended (rules : List ERule) (nsyms : Nat)
    (hwf : GramRulesWF rules nsyms) (a b : Nat) :
    rightRecursionOf rules nsyms a b = true ↔
      Relation.TransGen (RightmostStep rules) b a := by
  have hM : ∀ x y, seedRR rules nsyms x y = true → y < nsyms := by
    intro x y h
    rcases (seedRR_iff rules nsyms x y).mp h with ⟨-, r, hr, -, hsym⟩
    exact hsym ▸ (hwf r hr).1
  rw [show rightRecursionOf rules nsyms a b =
        warshall (seedRR rules nsyms) nsyms a b from rfl,
      warshall_correct _ _ hM]
  constructor
  · intro h
    exact (Relation.transGen_swap).mp
      (h.mono (fun x y hxy =>
        (seedRR_swap_rightmost rules nsyms hwf x y).mp hxy))
  · intro h
    exact ((Relation.transGen_swap).mpr h).mono
      (fun x y hxy => (seedRR_swap_rightmost rules nsyms hwf x y).mpr hxy)

/-- Claim C4 as stated is false: for the grammar `start → a` the rule
`start → a` is itself a one-step rightmost chain from `start` to `a`, yet
the computed matrix entry `right_recursion[start][a]` is clear (the code
seeds the transposed entry). -/
theorem c4_counterexample : ¬ claimC4 := by
  intro h
  have h2 := h [⟨"start", ["a"]⟩] 0 1 (by decide) (by decide)
  have hstep : RightmostStep (Grammar [⟨"start", ["a"]⟩]).rules 0 1 :=
    ⟨⟨"start", 0, [1]⟩, by decide, rfl, rfl⟩
  have hfalse := h2.mpr (Relation.TransGen.single hstep)
  exact absurd hfalse (by decide)

/-! ## Chart length and nonemptiness through a run -/

theorem putSet_length : ∀ (sets : List ESet) (k : Nat) (s : ESet),
    (putSet sets k s).length = sets.length := by
  intro sets
  induction sets with
  | nil => intro k s; rfl
  | cons h t ih =>
    intro k s
    cases k with
    | zero => rfl
    | succ k => simp [putSet, ih]

theorem advanceSets_length (g : Gram) (sets : List ESet) (which : Nat)
    (tok : String) : (advanceSets g sets which tok).length = sets.length := by
  unfold advanceSets
  cases symbolOf g tok with
  | none => rfl
  | some sym =>
    simp only
    split
    · rfl
    · split
      · exact putSet_length _ _ _
      · rfl

theorem processItem_length {g : Gram} {sets : List ESet} {which : Nat}
    {d : Item} {sets' : List ESet} (h : processItem g sets which d = .ok sets') :
    sets'.length = sets.length := by
  unfold processItem at h
  split at h
  · cases h; rfl
  · split at h
    · split at h
      · cases h
      · cases h; rfl
    · cases h; exact putSet_length _ _ _

theorem completeLoop_length {g : Gram} {which : Nat} :
    ∀ {fuel i : Nat} {sets sets' : List ESet},
      completeLoop g which i fuel sets = .ok sets' → sets'.length = sets.length := by
  intro fuel
  induction fuel with
  | zero =>
    intro i sets sets' h
    unfold completeLoop at h
    split at h
    · cases h
    · cases h; rfl
  | succ fuel ih =>
    intro i sets sets' h
    unfold completeLoop at h
    split at h
    · split at h
      · cases h
      · next heq =>
        exact (ih h).trans (processItem_length heq)
    · cases h; rfl

theorem pushTokens_cons (g : Gram) (fuel : Nat) (st : PState) (t : String)
    (ts : List String) :
    pushTokens g fuel st (t :: ts) =
      match handleToken g fuel st t with
      | .error e => .error e
      | .ok st' => pushTokens g fuel st' ts := rfl

theorem lt_length_ensureSets (sets : List ESet) (k : Nat) :
    k < (ensureSets sets k).length := by
  unfold ensureSets
  split
  · assumption
  · simp [List.length_append, List.length_replicate]
    omega

theorem handleToken_ne_nil {g : Gram} {fuel : Nat} {st : PState} {tok : String}
    {st' : PState} (h : handleToken g fuel st tok = .ok st') : st'.sets ≠ [] := by
  unfold handleToken at h
  split at h
  · cases h
  · next sets2 heq =>
    cases h
    refine List.length_pos.mp ?_
    have h1 := completeLoop_length heq
    have h2 := advanceSets_length g (ensureSets st.sets st.currentSet) st.currentSet tok
    have h3 := lt_length_ensureSets st.sets st.currentSet
    show 0 < sets2.length
    omega

theorem initState_ne_nil {g : Gram} {fuel : Nat} {st : PState}
    (h : initState g fuel = .ok st) : st.sets ≠ [] := by
  unfold initState at h
  split at h
  · cases h
  · next sets2 heq =>
    cases h
    refine List.length_pos.mp ?_
    have h1 := completeLoop_length heq
    show 0 < sets2.length
    simp [h1]

theorem pushTokens_ne_nil {g : Gram} {fuel : Nat} :
    ∀ {toks : List String} {st st' : PState},
      pushTokens g fuel st toks = .ok st' → st.sets ≠ [] → st'.sets ≠ [] := by
  intro toks
  induction toks with
  | nil => intro st st' h hne; cases h; exact hne
  | cons t ts ih =>
    intro st st' h hne
    unfold pushTokens at h
    split at h
    · cases h
    · next heq => exact ih h (handleToken_ne_nil heq)

theorem runParser_ne_nil {g : Gram} {toks : List String} {fuel : Nat}
    {st : PState} (h : runParser g toks fuel = .ok st) : st.sets ≠ [] := by
  unfold runParser at h
  split at h
  · cases h
  · next heq => exact pushTokens_ne_nil h (initState_ne_nil heq)

theorem exists_getLast?_of_ne_nil {α : Type} :
    ∀ (l : List α), l ≠ [] → ∃ x, l.getLast? = some x
  | [], h => absurd rfl h
  | [a], _ => ⟨a, rfl⟩
  | a :: b :: t, _ => by
    rw [List.getLast?_cons_cons]
    exact exists_getLast?_of_ne_nil (b :: t) (by simp)

/-- Claim C1: after any run, `success()` returns true iff the final Earley
set holds exactly one item whose rule is the accept rule, whose dot is at
the end of the accept rule's rhs, and whose origin is 0; zero or several
such items (the ambiguous case) give false. -/
theorem c1_success_iff_unique_accept (g : Gram) (toks : List String)
    (fuel : Nat) (st : PState) (h : runParser g toks fuel = .ok st) :
    successFn g st = some true ↔
      (st.sets.getLast?.getD ⟨[]⟩).items.countP (isAcceptItem g) = 1 := by
  rcases exists_getLast?_of_ne_nil st.sets (runParser_ne_nil h) with ⟨tab, htab⟩
  unfold successFn
  rw [htab]
  simp [Option.getD, beq_iff_eq]

/-- Witness for C1 at the grammar `start → a` with input `a`. -/
theorem c1_success_witness :
    successFn gA stA = some true ↔
      (stA.sets.getLast?.getD ⟨[]⟩).items.countP (isAcceptItem gA) = 1 :=
  c1_success_iff_unique_accept gA ["a"] 50 stA rfl

/-! ## Claim C5: the Leo completion path throws -/

/-- Claim C5 fails on the code: on the repository's own right-recursive test
grammar `start → A; A → a A; A → a`, the second `push` of `a` reaches the
Leo completion branch, whose item literal reads the undeclared identifier
`candidate` and raises a ReferenceError. -/
theorem c5_leo_reference_error :
    runParser gRR ["a", "a"] 50 = .error .leoRef := rfl

/-! ## Claim C9: the return value of parse -/

/-- Claim C9 as stated is false: on `start → a` with input `a` the parse
succeeds and `parse` returns the parser object itself (`success() && p`),
not the boolean true. -/
theorem c9_counterexample : ¬ claimC9 := by
  intro h
  have h1 := h gA ["a"] 50 stA rfl
  have h2 : parseFn gA ["a"] 50 = .ok (.parser stA) := rfl
  rw [h1] at h2
  exact ParseResult.noConfusion (Except.ok.inj h2)

/-- Claim C9, amended: `parse` constructs a fresh parser, pushes every token
in order, and returns the boolean false when that parser's `success()` is
false and the (truthy) parser object itself when `success()` is true; the
truthiness of its result always equals `success()`. -/
theorem c9_parse_amended (g : Gram) (toks : List String) (fuel : Nat)
    (st : PState) (h : runParser g toks fuel = .ok st) :
    ∃ r, parseFn g toks fuel = .ok r ∧
      (truthy r = true ↔ successFn g st = some true) ∧
      (r = .bool false ∨ r = .parser st) := by
  rcases exists_getLast?_of_ne_nil st.sets (runParser_ne_nil h) with ⟨tab, htab⟩
  have hs : successFn g st = some ((tab.items.countP (isAcceptItem g)) == 1) := by
    unfold successFn
    rw [htab]
  have hred : parseFn g toks fuel =
      (match successFn g st with
       | some true => .ok (.parser st)
       | some false => .ok (.bool false)
       | none => .error .typeError) := by
    unfold parseFn
    rw [h]
  cases hb : ((tab.items.countP (isAcceptItem g)) == 1) with
  | false =>
    refine ⟨.bool false, ?_, by simp [truthy, hs, hb], .inl rfl⟩
    rw [hred, hs, hb]
  | true =>
    refine ⟨.parser st, ?_, by simp [truthy, hs, hb], .inr rfl⟩
    rw [hred, hs, hb]

/-- Witness for the amended C9 at `start → a` with input `a`. -/
theorem c9_parse_amended_witness :
    ∃ r, parseFn gA ["a"] 50 = .ok r ∧
      (truthy r = true ↔ successFn gA stA = some true) ∧
      (r = .bool false ∨ r = .parser stA) :=
  c9_parse_amended gA ["a"] 50 stA rfl

/-- Witness for the amended C4 at `start → a`: the transposed entry
`(a, start)` is set and corresponds to the one-step rightmost chain from
`start` to `a`. -/
theorem c4_rr_amended_witness :
    rightRecursionOf gA.rules gA.symbols.length 1 0 = true ↔
      Relation.TransGen (RightmostStep gA.rules) 0 1 :=
  c4_rr_amended gA.rules gA.symbols.length
    (by
      show ∀ r ∈ gA.rules, r.sym < gA.symbols.length ∧
        ∀ s ∈ r.symbols, s < gA.symbols.length
      decide) 1 0

/-! ## Claim C2: empty input on a nullable grammar -/

/-- Claim C2 is contradicted by the code: for `start → A A; A → ε` the start
symbol derives the empty string, yet `success()` after zero pushes is false.
The completion pass advances `start → • A A` only against the snapshot taken
when `A → ε` was completed, so the dot never reaches the end of
`start → A A` and the accept item is never produced. -/
theorem c2_nullable_empty_input_bug :
    (∃ s, symbolOf gNull "start" = some s ∧ NullableSym gNull s) ∧
    runParser gNull [] 50 = .ok stNull ∧ successFn gNull stNull = some false := by
  refine ⟨⟨0, rfl, ?_⟩, rfl, rfl⟩
  refine NullableSym.intro (g := gNull) ⟨"start", 0, [1, 1]⟩ (by decide) ?_
  intro x hx
  have hx1 : x = 1 := by simpa using hx
  subst hx1
  exact NullableSym.intro (g := gNull) ⟨"A", 1, []⟩ (by decide)
    (by intro y hy; cases hy)

/-! ## Claim C3: the Leo-eligibility position condition -/

/-- Claim C3 as stated is false: on `start → A; A → a a A; A → a` after one
push of `a`, the advanced item `A → a • a A` (two symbols remain after the
dot) nevertheless carries `leo = 0` — the code's eligibility test consults
only the rule's right recursion, never the dot position. -/
theorem c3_counterexample : ¬ claimC3 := by
  intro h
  have hmem : (⟨1, 1, 0, some 0, 'A'⟩ : Item) ∈ (getSet stC3.sets 1).items := by
    decide
  have h2 := h gC3 ["a"] 50 stC3 rfl 1 ⟨1, 1, 0, some 0, 'A'⟩ hmem (by decide)
  exact absurd h2 (by decide)

/-! ## Insertion and membership lemmas -/

theorem foldl_preserve {α β : Type} {P : α → Prop} {f : α → β → α}
    (h : ∀ a b, P a → P (f a b)) :
    ∀ (l : List β) (a : α), P a → P (l.foldl f a) := by
  intro l
  induction l with
  | nil => intro a ha; exact ha
  | cons b t ih => intro a ha; exact ih _ (h a b ha)

theorem foldl_preserve_mem {α β : Type} {P : α → Prop} {f : α → β → α} :
    ∀ (l : List β), (∀ a b, b ∈ l → P a → P (f a b)) →
      ∀ (a : α), P a → P (l.foldl f a) := by
  intro l
  induction l with
  | nil => intro _ a ha; exact ha
  | cons b t ih =>
    intro h a ha
    exact ih (fun a c hc => h a c (List.mem_cons_of_mem b hc)) _
      (h a b (List.mem_cons_self b t) ha)

theorem addItem_mono {s : ESet} {it x : Item} (hx : x ∈ s.items) :
    x ∈ (addItem s it).items := by
  unfold addItem
  split
  · exact hx
  · exact List.mem_append_left _ hx

theorem mem_addItem {s : ESet} {it x : Item} (hx : x ∈ (addItem s it).items) :
    x ∈ s.items ∨ x = it := by
  unfold addItem at hx
  split at hx
  · exact .inl hx
  · rcases List.mem_append.mp hx with h | h
    · exact .inl h
    · exact .inr (by simpa using h)

theorem addItem_memTriple (s : ESet) (it : Item) :
    memTriple (addItem s it) it.ruleNo it.pos it.origin := by
  unfold addItem
  split
  · next hany =>
    rcases List.any_eq_true.mp hany with ⟨x, hx, hp⟩
    rw [Bool.and_eq_true, Bool.and_eq_true] at hp
    exact ⟨x, hx, beq_iff_eq.mp hp.1.1, beq_iff_eq.mp hp.1.2, beq_iff_eq.mp hp.2⟩
  · exact ⟨it, List.mem_append_right _ (List.mem_cons_self it []), rfl, rfl, rfl⟩

theorem addItem_of_dup {s : ESet} {it : Item}
    (h : ∃ x ∈ s.items, x.ruleNo = it.ruleNo ∧ x.pos = it.pos ∧ x.origin = it.origin) :
    addItem s it = s := by
  unfold addItem
  rw [if_pos]
  rcases h with ⟨x, hx, h1, h2, h3⟩
  refine List.any_eq_true.mpr ⟨x, hx, ?_⟩
  rw [Bool.and_eq_true, Bool.and_eq_true]
  exact ⟨⟨beq_iff_eq.mpr h1, beq_iff_eq.mpr h2⟩, beq_iff_eq.mpr h3⟩

theorem memTriple_addItem {s : ESet} {it : Item} {rn p o : Nat}
    (h : memTriple s rn p o) : memTriple (addItem s it) rn p o := by
  rcases h with ⟨x, hx, hp⟩
  exact ⟨x, addItem_mono hx, hp⟩

theorem predictCandidate_mono {g : Gram} {cur : ESet} {cand : Item}
    {which : Nat} {x : Item} (hx : x ∈ cur.items) :
    x ∈ (predictCandidate g cur cand which).items := by
  unfold predictCandidate
  split
  · exact hx
  · split
    · exact foldl_preserve (P := fun (s : ESet) => x ∈ s.items)
        (fun a b ha => addItem_mono ha) _ _ hx
    · exact hx

theorem memTriple_predictCandidate {g : Gram} {cur : ESet} {cand : Item}
    {which rn p o : Nat} (h : memTriple cur rn p o) :
    memTriple (predictCandidate g cur cand which) rn p o := by
  rcases h with ⟨x, hx, hp⟩
  exact ⟨x, predictCandidate_mono hx, hp⟩

theorem mem_foldl_addItem_pred {g : Gram} {cand : Item} {which : Nat} :
    ∀ (l : List Nat) (cur : ESet) (x : Item),
      x ∈ (l.foldl (fun s rn => addItem s (predItem g cand rn which)) cur).items →
      x ∈ cur.items ∨ ∃ rn, x = predItem g cand rn which := by
  intro l
  induction l with
  | nil => intro cur x hx; exact .inl hx
  | cons rn t ih =>
    intro cur x hx
    rcases ih _ x hx with h | h
    · rcases mem_addItem h with h' | h'
      · exact .inl h'
      · exact .inr ⟨rn, h'⟩
    · exact .inr h

theorem mem_predictCandidate {g : Gram} {cur : ESet} {cand : Item}
    {which : Nat} {x : Item} (hx : x ∈ (predictCandidate g cur cand which).items) :
    x ∈ cur.items ∨ ∃ rn, x = predItem g cand rn which := by
  unfold predictCandidate at hx
  split at hx
  · exact .inl hx
  · split at hx
    · exact mem_foldl_addItem_pred _ _ _ hx
    · exact .inl hx

theorem advStepF_mono {g : Gram} {sym which : Nat} {cur : ESet} {cand x : Item}
    (hx : x ∈ cur.items) : x ∈ (advStepF g sym which cur cand).items := by
  unfold advStepF
  split
  · exact predictCandidate_mono (addItem_mono hx)
  · exact hx

theorem compStepF_mono {g : Gram} {sym which : Nat} {cur : ESet} {cand x : Item}
    (hx : x ∈ cur.items) : x ∈ (compStepF g sym which cur cand).items := by
  unfold compStepF
  split
  · exact predictCandidate_mono (addItem_mono hx)
  · exact hx

theorem memTriple_advanceStep {g : Gram} {prev cur : ESet} {sym which rn p o : Nat}
    (h : memTriple cur rn p o) :
    memTriple (advanceStep g prev cur sym which) rn p o := by
  rcases h with ⟨x, hx, hp⟩
  exact ⟨x, foldl_preserve (P := fun (s : ESet) => x ∈ s.items)
    (fun a b ha => advStepF_mono ha) _ _ hx, hp⟩

theorem memTriple_completeElse {g : Gram} {snapshot : List Item}
    {sym which rn p o : Nat} {cur : ESet} (h : memTriple cur rn p o) :
    memTriple (completeElse g snapshot sym which cur) rn p o := by
  rcases h with ⟨x, hx, hp⟩
  exact ⟨x, foldl_preserve (P := fun (s : ESet) => x ∈ s.items)
    (fun a b ha => compStepF_mono ha) _ _ hx, hp⟩

/-! ## getSet and putSet lemmas -/

theorem getSet_putSet_self : ∀ (sets : List ESet) (k : Nat) (s : ESet),
    k < sets.length → getSet (putSet sets k s) k = s := by
  intro sets
  induction sets with
  | nil => intro k s h; cases h
  | cons a t ih =>
    intro k s h
    cases k with
    | zero => rfl
    | succ k => exact ih k s (Nat.lt_of_succ_lt_succ h)

theorem getSet_putSet_ne : ∀ (sets : List ESet) (k j : Nat) (s : ESet),
    j ≠ k → getSet (putSet sets k s) j = getSet sets j := by
  intro sets
  induction sets with
  | nil => intro k j s _; cases k <;> rfl
  | cons a t ih =>
    intro k j s hne
    cases k with
    | zero =>
      cases j with
      | zero => exact absurd rfl hne
      | succ j => rfl
    | succ k =>
      cases j with
      | zero => rfl
      | succ j => exact ih k j s (fun h => hne (by rw [h]))

theorem putSet_getSet_self : ∀ (sets : List ESet) (k : Nat),
    putSet sets k (getSet sets k) = sets := by
  intro sets
  induction sets with
  | nil => intro k; rfl
  | cons a t ih =>
    intro k
    cases k with
    | zero => rfl
    | succ k => simp [putSet, getSet, ih]

theorem getSet_append_left : ∀ (l1 l2 : List ESet) (j : Nat),
    j < l1.length → getSet (l1 ++ l2) j = getSet l1 j := by
  intro l1
  induction l1 with
  | nil => intro l2 j h; cases h
  | cons a t ih =>
    intro l2 j h
    cases j with
    | zero => rfl
    | succ j => exact ih l2 j (Nat.lt_of_succ_lt_succ h)

theorem getSet_append_length : ∀ (l : List ESet) (e : ESet),
    getSet (l ++ [e]) l.length = e := by
  intro l
  induction l with
  | nil => intro e; rfl
  | cons a t ih => intro e; exact ih e

theorem getSet_nil (k : Nat) : getSet [] k = ⟨[]⟩ := rfl

theorem getSet_ge_length : ∀ (l : List ESet) (k : Nat),
    l.length ≤ k → getSet l k = ⟨[]⟩ := by
  intro l
  induction l with
  | nil => intro k _; rfl
  | cons a t ih =>
    intro k h
    cases k with
    | zero => cases h
    | succ k => exact ih k (Nat.le_of_succ_le_succ h)

theorem ensureSets_eq_append {sets : List ESet} {k : Nat}
    (h : sets.length = k) : ensureSets sets k = sets ++ [⟨[]⟩] := by
  unfold ensureSets
  rw [if_neg (by omega)]
  have : k + 1 - sets.length = 1 := by omega
  rw [this]
  rfl

theorem putSet_ge_length : ∀ (sets : List ESet) (k : Nat) (s : ESet),
    sets.length ≤ k → putSet sets k s = sets := by
  intro sets
  induction sets with
  | nil => intro k s _; rfl
  | cons a t ih =>
    intro k s h
    cases k with
    | zero => cases h
    | succ k => simp [putSet, ih k s (Nat.le_of_succ_le_succ h)]

theorem getSet_append_right : ∀ (l1 l2 : List ESet) (j : Nat),
    l1.length ≤ j → getSet (l1 ++ l2) j = getSet l2 (j - l1.length) := by
  intro l1
  induction l1 with
  | nil => intro l2 j _; rfl
  | cons a t ih =>
    intro l2 j h
    cases j with
    | zero => cases h
    | succ j =>
      show getSet (t ++ l2) j = getSet l2 (j + 1 - (t.length + 1))
      rw [Nat.succ_sub_succ]
      exact ih l2 j (Nat.le_of_succ_le_succ h)

theorem getSet_replicate_empty : ∀ (m j : Nat),
    getSet (List.replicate m ⟨[]⟩) j = ⟨[]⟩ := by
  intro m
  induction m with
  | zero => intro j; rfl
  | succ m ih =>
    intro j
    cases j with
    | zero => rfl
    | succ j => exact ih j

/-! ## Claim C6: identity uniqueness -/

theorem addItem_nodup {s : ESet} {it : Item} (h : nodupTriples s) :
    nodupTriples (addItem s it) := by
  unfold addItem
  split
  · exact h
  · next hany =>
    show (List.map itemTriple (s.items ++ [it])).Nodup
    rw [List.map_append]
    simp only [List.map_cons, List.map_nil]
    rw [List.nodup_append]
    refine ⟨h, List.nodup_singleton _, ?_⟩
    intro a ha hb
    have hab : a = itemTriple it := by simpa using hb
    subst hab
    rcases List.mem_map.mp ha with ⟨x, hxmem, hxeq⟩
    unfold itemTriple at hxeq
    have h1 : x.ruleNo = it.ruleNo := congrArg Prod.fst hxeq
    have h2 : x.pos = it.pos := congrArg Prod.fst (congrArg Prod.snd hxeq)
    have h3 : x.origin = it.origin := congrArg Prod.snd (congrArg Prod.snd hxeq)
    apply hany
    refine List.any_eq_true.mpr ⟨x, hxmem, ?_⟩
    rw [Bool.and_eq_true, Bool.and_eq_true]
    exact ⟨⟨beq_iff_eq.mpr h1, beq_iff_eq.mpr h2⟩, beq_iff_eq.mpr h3⟩

theorem predictCandidate_nodup {g : Gram} {cur : ESet} {cand : Item}
    {which : Nat} (h : nodupTriples cur) :
    nodupTriples (predictCandidate g cur cand which) := by
  unfold predictCandidate
  split
  · exact h
  · split
    · exact foldl_preserve (P := nodupTriples) (fun a b ha => addItem_nodup ha) _ _ h
    · exact h

theorem advStepF_nodup {g : Gram} {sym which : Nat} {cur : ESet} {cand : Item}
    (h : nodupTriples cur) : nodupTriples (advStepF g sym which cur cand) := by
  unfold advStepF
  split
  · exact predictCandidate_nodup (addItem_nodup h)
  · exact h

theorem compStepF_nodup {g : Gram} {sym which : Nat} {cur : ESet} {cand : Item}
    (h : nodupTriples cur) : nodupTriples (compStepF g sym which cur cand) := by
  unfold compStepF
  split
  · exact predictCandidate_nodup (addItem_nodup h)
  · exact h

theorem advanceStep_nodup {g : Gram} {prev cur : ESet} {sym which : Nat}
    (h : nodupTriples cur) : nodupTriples (advanceStep g prev cur sym which) :=
  foldl_preserve (P := nodupTriples) (fun a b ha => advStepF_nodup ha) _ _ h

theorem completeElse_nodup {g : Gram} {snapshot : List Item} {sym which : Nat}
    {cur : ESet} (h : nodupTriples cur) :
    nodupTriples (completeElse g snapshot sym which cur) :=
  foldl_preserve (P := nodupTriples) (fun a b ha => compStepF_nodup ha) _ _ h

theorem nodupTriples_empty : nodupTriples ⟨[]⟩ := List.nodup_nil

theorem putSet_uniq {sets : List ESet} {k : Nat} {s : ESet}
    (h : UniqOK sets) (hs : nodupTriples s) : UniqOK (putSet sets k s) := by
  intro j
  by_cases hj : j = k
  · subst hj
    by_cases hk : j < sets.length
    · rw [getSet_putSet_self _ _ _ hk]; exact hs
    · rw [putSet_ge_length _ _ _ (Nat.le_of_not_lt hk)]; exact h j
  · rw [getSet_putSet_ne _ _ _ _ hj]; exact h j

theorem ensureSets_uniq {sets : List ESet} {k : Nat} (h : UniqOK sets) :
    UniqOK (ensureSets sets k) := by
  unfold ensureSets
  split
  · exact h
  · intro j
    by_cases hj : j < sets.length
    · rw [getSet_append_left _ _ _ hj]; exact h j
    · rw [getSet_append_right _ _ _ (Nat.le_of_not_lt hj), getSet_replicate_empty]
      exact nodupTriples_empty

theorem advanceSets_uniq {g : Gram} {sets : List ESet} {which : Nat}
    {tok : String} (h : UniqOK sets) : UniqOK (advanceSets g sets which tok) := by
  unfold advanceSets
  cases symbolOf g tok with
  | none => exact h
  | some sym =>
    simp only
    split
    · exact h
    · split
      · exact putSet_uniq h (advanceStep_nodup (h which))
      · exact h

theorem processItem_uniq {g : Gram} {sets : List ESet} {which : Nat} {d : Item}
    {sets' : List ESet} (h : processItem g sets which d = .ok sets')
    (hu : UniqOK sets) : UniqOK sets' := by
  unfold processItem at h
  split at h
  · cases h; exact hu
  · split at h
    · split at h
      · cases h
      · cases h; exact hu
    · cases h; exact putSet_uniq hu (completeElse_nodup (hu which))

theorem completeLoop_uniq {g : Gram} {which : Nat} :
    ∀ {fuel i : Nat} {sets sets' : List ESet},
      completeLoop g which i fuel sets = .ok sets' → UniqOK sets → UniqOK sets' := by
  intro fuel
  induction fuel with
  | zero =>
    intro i sets sets' h hu
    unfold completeLoop at h
    split at h
    · cases h
    · cases h; exact hu
  | succ fuel ih =>
    intro i sets sets' h hu
    unfold completeLoop at h
    split at h
    · split at h
      · cases h
      · next heq => exact ih h (processItem_uniq heq hu)
    · cases h; exact hu

theorem handleToken_uniq {g : Gram} {fuel : Nat} {st : PState} {tok : String}
    {st' : PState} (h : handleToken g fuel st tok = .ok st')
    (hu : UniqOK st.sets) : UniqOK st'.sets := by
  unfold handleToken at h
  split at h
  · cases h
  · next heq =>
    cases h
    exact completeLoop_uniq heq (advanceSets_uniq (ensureSets_uniq hu))

theorem initSet_nodup (g : Gram) : nodupTriples (initSet g) :=
  foldl_preserve (P := nodupTriples) (fun a b ha => addItem_nodup ha) _ _
    nodupTriples_empty

theorem initState_uniq {g : Gram} {fuel : Nat} {st : PState}
    (h : initState g fuel = .ok st) : UniqOK st.sets := by
  unfold initState at h
  split at h
  · cases h
  · next heq =>
    cases h
    refine completeLoop_uniq heq ?_
    intro k
    cases k with
    | zero => exact initSet_nodup g
    | succ k =>
      show nodupTriples (getSet [] k)
      exact nodupTriples_empty

theorem pushTokens_uniq {g : Gram} {fuel : Nat} :
    ∀ {toks : List String} {st st' : PState},
      pushTokens g fuel st toks = .ok st' → UniqOK st.sets → UniqOK st'.sets := by
  intro toks
  induction toks with
  | nil => intro st st' h hu; cases h; exact hu
  | cons t ts ih =>
    intro st st' h hu
    rw [pushTokens_cons] at h
    split at h
    · cases h
    · next heq => exact ih h (handleToken_uniq heq hu)

/-- Claim C6: in every Earley set of every reachable parser state, at most
one item exists per `(ruleNo, pos, origin)` identity; and re-inserting an
item whose identity is already present leaves the set unchanged — the first
inserted item, with its `leo` and `kind` fields, is kept and the new one is
discarded. -/
theorem c6_identity_unique :
    (∀ (g : Gram) (toks : List String) (fuel : Nat) (st : PState),
        runParser g toks fuel = .ok st →
        ∀ k, nodupTriples (getSet st.sets k)) ∧
    (∀ (s : ESet) (it : Item),
        (∃ x ∈ s.items, x.ruleNo = it.ruleNo ∧ x.pos = it.pos ∧
          x.origin = it.origin) →
        addItem s it = s) := by
  constructor
  · intro g toks fuel st h k
    unfold runParser at h
    split at h
    · cases h
    · next heq => exact pushTokens_uniq h (initState_uniq heq) k
  · intro s it h
    exact addItem_of_dup h

/-- Witness for C6 on the run of `start → a` over input `a`. -/
theorem c6_identity_unique_witness : nodupTriples (getSet stA.sets 1) :=
  c6_identity_unique.1 gA ["a"] 50 stA rfl 1

/-! ## Claim C7: origin bounds -/

theorem originLe_empty (k : Nat) : OriginLe ⟨[]⟩ k := by
  intro x hx
  exact absurd hx (List.not_mem_nil x)

theorem addItem_originLe {s : ESet} {it : Item} {k : Nat}
    (h : OriginLe s k) (hit : it.origin ≤ k) : OriginLe (addItem s it) k := by
  intro x hx
  rcases mem_addItem hx with h' | rfl
  · exact h x h'
  · exact hit

theorem predictCandidate_originLe {g : Gram} {cur : ESet} {cand : Item}
    {which : Nat} (h : OriginLe cur which) :
    OriginLe (predictCandidate g cur cand which) which := by
  intro x hx
  rcases mem_predictCandidate hx with h' | ⟨rn, rfl⟩
  · exact h x h'
  · exact Nat.le_refl which

theorem advStepF_originLe {g : Gram} {sym which : Nat} {cur : ESet}
    {cand : Item} (h : OriginLe cur which) (hc : cand.origin ≤ which) :
    OriginLe (advStepF g sym which cur cand) which := by
  unfold advStepF
  split
  · exact predictCandidate_originLe (addItem_originLe h hc)
  · exact h

theorem compStepF_originLe {g : Gram} {sym which : Nat} {cur : ESet}
    {cand : Item} (h : OriginLe cur which) (hc : cand.origin ≤ which) :
    OriginLe (compStepF g sym which cur cand) which := by
  unfold compStepF
  split
  · exact predictCandidate_originLe (addItem_originLe h hc)
  · exact h

theorem advanceStep_originLe {g : Gram} {prev cur : ESet} {sym which : Nat}
    (h : OriginLe cur which) (hp : ∀ c ∈ prev.items, c.origin ≤ which) :
    OriginLe (advanceStep g prev cur sym which) which :=
  foldl_preserve_mem (P := fun s => OriginLe s which) prev.items
    (fun _ c hc ha => advStepF_originLe ha (hp c hc)) cur h

theorem completeElse_originLe {g : Gram} {snapshot : List Item}
    {sym which : Nat} {cur : ESet} (h : OriginLe cur which)
    (hs : ∀ c ∈ snapshot, c.origin ≤ which) :
    OriginLe (completeElse g snapshot sym which cur) which :=
  foldl_preserve_mem (P := fun s => OriginLe s which) snapshot
    (fun _ c hc ha => compStepF_originLe ha (hs c hc)) cur h

theorem putSet_originOK {sets : List ESet} {k : Nat} {s : ESet}
    (h : OriginOK sets) (hs : OriginLe s k) : OriginOK (putSet sets k s) := by
  intro j
  by_cases hj : j = k
  · subst hj
    by_cases hk : j < sets.length
    · rw [getSet_putSet_self _ _ _ hk]; exact hs
    · rw [putSet_ge_length _ _ _ (Nat.le_of_not_lt hk)]; exact h j
  · rw [getSet_putSet_ne _ _ _ _ hj]; exact h j

theorem ensureSets_originOK {sets : List ESet} {k : Nat} (h : OriginOK sets) :
    OriginOK (ensureSets sets k) := by
  unfold ensureSets
  split
  · exact h
  · intro j
    by_cases hj : j < sets.length
    · rw [getSet_append_left _ _ _ hj]; exact h j
    · rw [getSet_append_right _ _ _ (Nat.le_of_not_lt hj), getSet_replicate_empty]
      exact originLe_empty j

theorem advanceSets_originOK {g : Gram} {sets : List ESet} {which : Nat}
    {tok : String} (h : OriginOK sets) :
    OriginOK (advanceSets g sets which tok) := by
  unfold advanceSets
  cases symbolOf g tok with
  | none => exact h
  | some sym =>
    simp only
    split
    · exact h
    · split
      · refine putSet_originOK h ?_
        refine advanceStep_originLe (h which) ?_
        intro c hc
        exact Nat.le_trans (h (which - 1) c hc) (Nat.sub_le which 1)
      · exact h

theorem processItem_originOK {g : Gram} {sets : List ESet} {which : Nat}
    {d : Item} {sets' : List ESet} (h : processItem g sets which d = .ok sets')
    (hd : d.origin ≤ which) (ho : OriginOK sets) : OriginOK sets' := by
  unfold processItem at h
  split at h
  · cases h; exact ho
  · split at h
    · split at h
      · cases h
      · cases h; exact ho
    · cases h
      refine putSet_originOK ho ?_
      refine completeElse_originLe (ho which) ?_
      intro c hc
      exact Nat.le_trans (ho d.origin c hc) hd

theorem completeLoop_originOK {g : Gram} {which : Nat} :
    ∀ {fuel i : Nat} {sets sets' : List ESet},
      completeLoop g which i fuel sets = .ok sets' → OriginOK sets →
      OriginOK sets' := by
  intro fuel
  induction fuel with
  | zero =>
    intro i sets sets' h ho
    unfold completeLoop at h
    split at h
    · cases h
    · cases h; exact ho
  | succ fuel ih =>
    intro i sets sets' h ho
    unfold completeLoop at h
    split at h
    · next hi =>
      split at h
      · cases h
      · next heq =>
        refine ih h (processItem_originOK heq ?_ ho)
        exact ho which _ (List.get_mem _ _ _)
    · cases h; exact ho

theorem handleToken_originOK {g : Gram} {fuel : Nat} {st : PState}
    {tok : String} {st' : PState} (h : handleToken g fuel st tok = .ok st')
    (ho : OriginOK st.sets) : OriginOK st'.sets := by
  unfold handleToken at h
  split at h
  · cases h
  · next heq =>
    cases h
    exact completeLoop_originOK heq (advanceSets_originOK (ensureSets_originOK ho))

theorem initSet_originLe (g : Gram) : OriginLe (initSet g) 0 :=
  foldl_preserve (P := fun s => OriginLe s 0)
    (fun a b ha => addItem_originLe ha (Nat.le_refl 0)) _ _ (originLe_empty 0)

theorem initState_originOK {g : Gram} {fuel : Nat} {st : PState}
    (h : initState g fuel = .ok st) : OriginOK st.sets := by
  unfold initState at h
  split at h
  · cases h
  · next heq =>
    cases h
    refine completeLoop_originOK heq ?_
    intro k
    cases k with
    | zero => exact initSet_originLe g
    | succ k =>
      show OriginLe (getSet [] k) (k + 1)
      exact fun x hx => absurd hx (List.not_mem_nil x)

theorem pushTokens_originOK {g : Gram} {fuel : Nat} :
    ∀ {toks : List String} {st st' : PState},
      pushTokens g fuel st toks = .ok st' → OriginOK st.sets →
      OriginOK st'.sets := by
  intro toks
  induction toks with
  | nil => intro st st' h ho; cases h; exact ho
  | cons t ts ih =>
    intro st st' h ho
    rw [pushTokens_cons] at h
    split at h
    · cases h
    · next heq => exact ih h (handleToken_originOK heq ho)

/-- Claim C7: after any run, every item of Earley set `k` has
`0 ≤ origin ≤ k` (origins are naturals, so the lower bound is inherent). -/
theorem c7_origin_bound (g : Gram) (toks : List String) (fuel : Nat)
    (st : PState) (h : runParser g toks fuel = .ok st) :
    ∀ k, ∀ item ∈ (getSet st.sets k).items, item.origin ≤ k := by
  have : OriginOK st.sets := by
    unfold runParser at h
    split at h
    · cases h
    · next heq => exact pushTokens_originOK h (initState_originOK heq)
  exact this

/-- Witness for C7 on the run of `start → a` over input `a`: the advanced
item `start → a •` in set 1 has origin 0 ≤ 1. -/
theorem c7_origin_bound_witness : (⟨0, 1, 0, none, 'A'⟩ : Item).origin ≤ 1 :=
  c7_origin_bound gA ["a"] 50 stA rfl 1 ⟨0, 1, 0, none, 'A'⟩ (by decide)

/-! ## Claim C8: unknown tokens -/

theorem completeLoop_empty_items {g : Gram} {which : Nat} {sets : List ESet}
    {fuel : Nat} (h : (getSet sets which).items = []) :
    completeLoop g which 0 fuel sets = .ok sets := by
  cases fuel with
  | zero => unfold completeLoop; simp [h]
  | succ fuel => unfold completeLoop; simp [h]

theorem handleToken_unknown {g : Gram} {fuel : Nat} {st : PState} {tok : String}
    (hsym : symbolOf g tok = none) (hcs : st.currentSet = st.sets.length) :
    handleToken g fuel st tok = .ok ⟨st.sets ++ [⟨[]⟩], st.currentSet + 1⟩ := by
  unfold handleToken
  rw [ensureSets_eq_append hcs.symm]
  have ha : advanceSets g (st.sets ++ [⟨[]⟩]) st.currentSet tok
      = st.sets ++ [⟨[]⟩] := by
    unfold advanceSets
    rw [hsym]
  rw [ha]
  have hempty : (getSet (st.sets ++ [⟨[]⟩]) st.currentSet).items = [] := by
    rw [hcs, getSet_append_length]
  rw [completeLoop_empty_items hempty]

theorem advanceSets_empty_prev {g : Gram} {sets : List ESet} {which : Nat}
    {tok : String} (hprev : (getSet sets (which - 1)).items = []) :
    advanceSets g sets which tok = sets := by
  unfold advanceSets
  cases symbolOf g tok with
  | none => rfl
  | some sym =>
    simp only
    split
    · rfl
    · split
      · have hstep : advanceStep g (getSet sets (which - 1)) (getSet sets which)
            sym which = getSet sets which := by
          unfold advanceStep
          rw [hprev]
          rfl
        rw [hstep, putSet_getSet_self]
      · rfl

theorem handleToken_empty_last (g : Gram) (fuel : Nat) (st : PState)
    (tok : String) (hcs : st.currentSet = st.sets.length)
    (hlast : getSet st.sets (st.sets.length - 1) = ⟨[]⟩)
    (hpos : 0 < st.sets.length) :
    handleToken g fuel st tok = .ok ⟨st.sets ++ [⟨[]⟩], st.currentSet + 1⟩ := by
  unfold handleToken
  rw [ensureSets_eq_append hcs.symm]
  have hprev : (getSet (st.sets ++ [⟨[]⟩]) (st.currentSet - 1)).items = [] := by
    rw [hcs, getSet_append_left _ _ _ (by omega), hlast]
  rw [advanceSets_empty_prev hprev]
  have hempty : (getSet (st.sets ++ [⟨[]⟩]) st.currentSet).items = [] := by
    rw [hcs, getSet_append_length]
  rw [completeLoop_empty_items hempty]

theorem pushTokens_empty_tail (g : Gram) (fuel : Nat) :
    ∀ (toks : List String) (st : PState),
      st.currentSet = st.sets.length →
      getSet st.sets (st.sets.length - 1) = ⟨[]⟩ → 0 < st.sets.length →
      ∃ st', pushTokens g fuel st toks = .ok st' ∧
        st'.currentSet = st'.sets.length ∧
        getSet st'.sets (st'.sets.length - 1) = ⟨[]⟩ ∧ 0 < st'.sets.length := by
  intro toks
  induction toks with
  | nil =>
    intro st h1 h2 h3
    exact ⟨st, rfl, h1, h2, h3⟩
  | cons t ts ih =>
    intro st h1 h2 h3
    have hstep := handleToken_empty_last g fuel st t h1 h2 h3
    have hlen : (st.sets ++ [(⟨[]⟩ : ESet)]).length = st.sets.length + 1 := by
      simp
    have p1 : (st.currentSet + 1) = (st.sets ++ [(⟨[]⟩ : ESet)]).length := by
      rw [hlen, h1]
    have p2 : getSet (st.sets ++ [(⟨[]⟩ : ESet)])
        ((st.sets ++ [(⟨[]⟩ : ESet)]).length - 1) = ⟨[]⟩ := by
      rw [hlen]
      simpa using getSet_append_length st.sets ⟨[]⟩
    have p3 : 0 < (st.sets ++ [(⟨[]⟩ : ESet)]).length := by
      rw [hlen]; omega
    rcases ih ⟨st.sets ++ [⟨[]⟩], st.currentSet + 1⟩ p1 p2 p3 with
      ⟨st', hr, q1, q2, q3⟩
    refine ⟨st', ?_, q1, q2, q3⟩
    rw [pushTokens_cons, hstep]
    exact hr

theorem getLast?_eq_getSet : ∀ (l : List ESet), l ≠ [] →
    l.getLast? = some (getSet l (l.length - 1))
  | [], h => absurd rfl h
  | [a], _ => rfl
  | a :: b :: t, _ => by
    rw [List.getLast?_cons_cons]
    have := getLast?_eq_getSet (b :: t) (by simp)
    rw [this]
    rfl

theorem successFn_empty_last {g : Gram} {st : PState}
    (h1 : getSet st.sets (st.sets.length - 1) = ⟨[]⟩)
    (h2 : 0 < st.sets.length) : successFn g st = some false := by
  have hne : st.sets ≠ [] := List.length_pos.mp h2
  unfold successFn
  rw [getLast?_eq_getSet st.sets hne, h1]
  rfl

/-- Claim C8: pushing a token whose literal is not in the symbol table does
not throw and advances nothing — the new Earley set is empty — and however
many further tokens are pushed the run keeps succeeding with empty sets and
`success()` is false. -/
theorem c8_unknown_token (g : Gram) (fuel : Nat) (st : PState) (tok : String)
    (toks : List String) (hsym : symbolOf g tok = none)
    (hcs : st.currentSet = st.sets.length) :
    handleToken g fuel st tok = .ok ⟨st.sets ++ [⟨[]⟩], st.currentSet + 1⟩ ∧
    ∃ st', pushTokens g fuel ⟨st.sets ++ [⟨[]⟩], st.currentSet + 1⟩ toks = .ok st' ∧
      successFn g st' = some false := by
  refine ⟨handleToken_unknown hsym hcs, ?_⟩
  have hlen : (st.sets ++ [(⟨[]⟩ : ESet)]).length = st.sets.length + 1 := by simp
  have p1 : (⟨st.sets ++ [⟨[]⟩], st.currentSet + 1⟩ : PState).currentSet
      = (⟨st.sets ++ [⟨[]⟩], st.currentSet + 1⟩ : PState).sets.length := by
    show st.currentSet + 1 = (st.sets ++ [(⟨[]⟩ : ESet)]).length
    rw [hlen, hcs]
  have p2 : getSet (st.sets ++ [(⟨[]⟩ : ESet)])
      ((st.sets ++ [(⟨[]⟩ : ESet)]).length - 1) = ⟨[]⟩ := by
    rw [hlen]
    simpa using getSet_append_length st.sets ⟨[]⟩
  have p3 : 0 < (st.sets ++ [(⟨[]⟩ : ESet)]).length := by rw [hlen]; omega
  rcases pushTokens_empty_tail g fuel toks ⟨st.sets ++ [⟨[]⟩], st.currentSet + 1⟩ p1 p2 p3 with
    ⟨st', hr, q1, q2, q3⟩
  exact ⟨st', hr, successFn_empty_last q2 q3⟩

/-- Witness for C8: pushing the unknown token `z` on a fresh `start → a`
parser, followed by `a`. -/
theorem c8_unknown_token_witness :
    handleToken gA 50 stA0 "z" = .ok ⟨stA0.sets ++ [⟨[]⟩], stA0.currentSet + 1⟩ ∧
    ∃ st', pushTokens gA 50 ⟨stA0.sets ++ [⟨[]⟩], stA0.currentSet + 1⟩ ["a"] = .ok st' ∧
      successFn gA st' = some false :=
  c8_unknown_token gA 50 stA0 "z" ["a"] rfl rfl

/-! ## Claim C10: the symbol-of lookup covers the whole table -/

theorem memTriple_advStepF {g : Gram} {sym which rn p o : Nat} {cur : ESet}
    {cand : Item} (h : memTriple cur rn p o) :
    memTriple (advStepF g sym which cur cand) rn p o := by
  rcases h with ⟨x, hx, hp⟩
  exact ⟨x, advStepF_mono hx, hp⟩

theorem advanceStep_adds {g : Gram} {sym which : Nat} :
    ∀ (l : List Item) (cur : ESet) (cand : Item), cand ∈ l →
      (ruleOf g cand.ruleNo).symbols.get? cand.pos = some sym →
      memTriple (l.foldl (advStepF g sym which) cur) cand.ruleNo (cand.pos + 1)
        cand.origin := by
  intro l
  induction l with
  | nil => intro cur cand hc; cases hc
  | cons c t ih =>
    intro cur cand hc hm
    rcases List.mem_cons.mp hc with rfl | hct
    · have h1 : memTriple (advStepF g sym which cur cand) cand.ruleNo
          (cand.pos + 1) cand.origin := by
        unfold advStepF
        rw [if_pos (by rw [hm]; simp)]
        exact memTriple_predictCandidate (addItem_memTriple cur (advItem g cand))
      exact foldl_preserve
        (P := fun s => memTriple s cand.ruleNo (cand.pos + 1) cand.origin)
        (fun a b ha => memTriple_advStepF ha) t _ h1
    · exact ih (advStepF g sym which cur c) cand hct hm

theorem processItem_memTriple {g : Gram} {sets : List ESet} {which : Nat}
    {d : Item} {sets' : List ESet} {k rn p o : Nat}
    (h : processItem g sets which d = .ok sets')
    (hm : memTriple (getSet sets k) rn p o) :
    memTriple (getSet sets' k) rn p o := by
  unfold processItem at h
  split at h
  · cases h; exact hm
  · split at h
    · split at h
      · cases h
      · cases h; exact hm
    · cases h
      by_cases hk : k = which
      · subst hk
        by_cases hlt : k < sets.length
        · rw [getSet_putSet_self _ _ _ hlt]
          exact memTriple_completeElse hm
        · rw [putSet_ge_length _ _ _ (Nat.le_of_not_lt hlt)]
          exact hm
      · rw [getSet_putSet_ne _ _ _ _ hk]
        exact hm

theorem completeLoop_memTriple {g : Gram} {which : Nat} :
    ∀ {fuel i : Nat} {sets sets' : List ESet} {k rn p o : Nat},
      completeLoop g which i fuel sets = .ok sets' →
      memTriple (getSet sets k) rn p o → memTriple (getSet sets' k) rn p o := by
  intro fuel
  induction fuel with
  | zero =>
    intro i sets sets' k rn p o h hm
    unfold completeLoop at h
    split at h
    · cases h
    · cases h; exact hm
  | succ fuel ih =>
    intro i sets sets' k rn p o h hm
    unfold completeLoop at h
    split at h
    · split at h
      · cases h
      · next heq => exact ih h (processItem_memTriple heq hm)
    · cases h; exact hm

/-- Claim C10: the symbol-of lookup searches the entire symbol table, so a
pushed token equal to a non-terminal's name resolves to that non-terminal's
id and advances every item expecting it; in particular the single token
`start` completes the accept rule of `start → a` and the parse succeeds. -/
theorem c10_symbol_lookup :
    (∀ (g : Gram) (fuel : Nat) (st : PState) (tok : String) (sym : Nat)
        (st' : PState),
        symbolOf g tok = some sym →
        st.currentSet = st.sets.length → 0 < st.sets.length →
        handleToken g fuel st tok = .ok st' →
        ∀ cand ∈ (getSet st.sets (st.currentSet - 1)).items,
          (ruleOf g cand.ruleNo).symbols.get? cand.pos = some sym →
          memTriple (getSet st'.sets st.currentSet) cand.ruleNo (cand.pos + 1)
            cand.origin) ∧
    symbolOf gA "start" = some (ruleOf gA 0).sym ∧
    runParser gA ["start"] 50 = .ok stStart ∧
    successFn gA stStart = some true := by
  refine ⟨?_, rfl, rfl, rfl⟩
  intro g fuel st tok sym st' hsym hcs hpos h cand hcand hm
  unfold handleToken at h
  split at h
  · cases h
  · next sets2 heq =>
    cases h
    rw [ensureSets_eq_append hcs.symm] at heq
    have h0 : st.currentSet ≠ 0 := by omega
    have hlt : st.currentSet - 1 < (st.sets ++ [(⟨[]⟩ : ESet)]).length := by
      rw [List.length_append]
      simp
      omega
    have ha : advanceSets g (st.sets ++ [⟨[]⟩]) st.currentSet tok =
        putSet (st.sets ++ [⟨[]⟩]) st.currentSet
          (advanceStep g (getSet (st.sets ++ [⟨[]⟩]) (st.currentSet - 1))
            (getSet (st.sets ++ [⟨[]⟩]) st.currentSet) sym st.currentSet) := by
      simp [advanceSets, hsym, h0, hlt]
      intro hcontra
      exact absurd hcontra (by omega)
    rw [ha] at heq
    have hprevapp : getSet (st.sets ++ [(⟨[]⟩ : ESet)]) (st.currentSet - 1) =
        getSet st.sets (st.currentSet - 1) :=
      getSet_append_left _ _ _ (by omega)
    have hmem : memTriple
        (getSet (putSet (st.sets ++ [⟨[]⟩]) st.currentSet
          (advanceStep g (getSet (st.sets ++ [⟨[]⟩]) (st.currentSet - 1))
            (getSet (st.sets ++ [⟨[]⟩]) st.currentSet) sym st.currentSet))
          st.currentSet) cand.ruleNo (cand.pos + 1) cand.origin := by
      rw [getSet_putSet_self _ _ _ (by rw [List.length_append]; simp; omega)]
      refine advanceStep_adds _ _ cand ?_ hm
      rw [hprevapp]
      exact hcand
    exact completeLoop_memTriple heq hmem

/-- Witness for C10: on a fresh `start → a` parser, the item
`_accept → • start` in set 0 is advanced to `_accept → start •` by pushing
the token `start`. -/
theorem c10_symbol_lookup_witness :
    memTriple (getSet stStart1.sets stA0.currentSet) 1 1 0 :=
  c10_symbol_lookup.1 gA 50 stA0 "start" 0 stStart1 rfl rfl (by decide) rfl
    ⟨1, 0, 0, none, 'I'⟩ (by decide) rfl

/-! ## Claim C3, amended: how leo is actually assigned -/

theorem mem_advFold {g : Gram} {sym which : Nat} :
    ∀ (l : List Item) (cur : ESet) (x : Item),
      x ∈ (l.foldl (advStepF g sym which) cur).items →
      x ∈ cur.items ∨ ∃ cand, cand ∈ l ∧
        (ruleOf g cand.ruleNo).symbols.get? cand.pos = some sym ∧
        (x = advItem g cand ∨ ∃ rn, x = predItem g (advItem g cand) rn which) := by
  intro l
  induction l with
  | nil => intro cur x hx; exact .inl hx
  | cons c t ih =>
    intro cur x hx
    rcases ih _ x hx with h | ⟨cand, hct, hg, hshape⟩
    · unfold advStepF at h
      split at h
      · next hcond =>
        have hg : (ruleOf g c.ruleNo).symbols.get? c.pos = some sym := by
          simpa using hcond
        rcases mem_predictCandidate h with h' | ⟨rn, rfl⟩
        · rcases mem_addItem h' with h'' | rfl
          · exact .inl h''
          · exact .inr ⟨c, List.mem_cons_self c t, hg, .inl rfl⟩
        · exact .inr ⟨c, List.mem_cons_self c t, hg, .inr ⟨rn, rfl⟩⟩
      · exact .inl h
    · exact .inr ⟨cand, List.mem_cons_of_mem c hct, hg, hshape⟩

/-- Claim C3, amended: `leo` assignment never consults the dot position.
The eligibility test yields `some w` exactly when the rule's last rhs symbol
equals its lhs or the right-recursion bit `(lhs, lastSym)` is set. Every
item produced by `advance` is either pre-existing, or the advanced item of a
matching candidate — which keeps a non-null predecessor `leo` and otherwise
gets the eligibility result at its origin, at every dot position — or a
prediction whose `leo` is computed from the *predicting* item's rule, seeded
with the predictor's `leo` when present, else its origin. -/
theorem c3_leo_amended :
    (∀ (g : Gram) (r : ERule) (w : Nat), r.symbols ≠ [] →
      ((leoFn g r w = some w ↔
        (r.symbols.getLast? = some r.sym ∨
          ∃ ls, r.symbols.getLast? = some ls ∧
            g.right_recursion r.sym ls = true)) ∧
       (leoFn g r w = some w ∨ leoFn g r w = none))) ∧
    (∀ (g : Gram) (prev cur : ESet) (sym which : Nat) (x : Item),
      x ∈ (advanceStep g prev cur sym which).items →
      x ∈ cur.items ∨ ∃ cand, cand ∈ prev.items ∧
        (ruleOf g cand.ruleNo).symbols.get? cand.pos = some sym ∧
        (x = advItem g cand ∨ ∃ rn, x = predItem g (advItem g cand) rn which)) := by
  constructor
  · intro g r w hne
    rcases exists_getLast?_of_ne_nil r.symbols hne with ⟨ls, hls⟩
    have hleo : leoFn g r w =
        if (ls == r.sym || g.right_recursion r.sym ls) = true then some w
        else none := by
      unfold leoFn
      rw [hls]
    rw [hleo]
    split
    · next hcond =>
      rw [Bool.or_eq_true] at hcond
      refine ⟨⟨fun _ => ?_, fun _ => rfl⟩, .inl rfl⟩
      rcases hcond with h | h
      · exact .inl (by rw [hls, beq_iff_eq.mp h])
      · exact .inr ⟨ls, hls, h⟩
    · next hcond =>
      refine ⟨⟨fun h => ?_, fun h => ?_⟩, .inr rfl⟩
      · cases h
      exfalso
      apply hcond
      rw [Bool.or_eq_true]
      rcases h with h | ⟨ls', hls', hrr⟩
      · left
        rw [hls] at h
        exact beq_iff_eq.mpr (Option.some.inj h)
      · right
        rw [hls] at hls'
        rw [← Option.some.inj hls'] at hrr
        exact hrr
  · intro g prev cur sym which x hx
    exact mem_advFold prev.items cur x hx

/-- Witness for the amended C3 on the right-recursive rule `A → a a A` of
`gC3`: the eligibility test yields `some 0` because the last rhs symbol
equals the lhs. -/
theorem c3_leo_amended_witness :
    ((leoFn gC3 ⟨"A", 1, [2, 2, 1]⟩ 0 = some 0 ↔
      ((⟨"A", 1, [2, 2, 1]⟩ : ERule).symbols.getLast? =
          some (⟨"A", 1, [2, 2, 1]⟩ : ERule).sym ∨
        ∃ ls, (⟨"A", 1, [2, 2, 1]⟩ : ERule).symbols.getLast? = some ls ∧
          gC3.right_recursion (⟨"A", 1, [2, 2, 1]⟩ : ERule).sym ls = true)) ∧
     (leoFn gC3 ⟨"A", 1, [2, 2, 1]⟩ 0 = some 0 ∨
      leoFn gC3 ⟨"A", 1, [2, 2, 1]⟩ 0 = none)) :=
  c3_leo_amended.1 gC3 ⟨"A", 1, [2, 2, 1]⟩ 0 (by decide)

end Lotsawa
